/-
Verification of the KD-tree nearest-neighbor index (kdtree-proyect).

Shallow embedding of `include/kdtree.h` and `include/embeddings.h`:
  * coordinates (`double` in the C++) are modelled as exact rationals `ℚ`;
    the code compares squared distances with `<`, `x ↦ √x` is strictly
    monotone on nonnegatives, so exact squared-distance comparisons have
    the same outcome as the C++ comparisons (up to floating-point rounding,
    which the spec itself tolerates);
  * the square root taken once at the result boundary
    (`return std::make_pair(std::sqrt(best_dist), best_text)`) is kept
    symbolic: the embedded search functions return SQUARED distances, and
    every claim stated here about distance equality or ordering transfers
    along the strictly monotone `√`;
  * `std::sort` on a sub-slice becomes `List.insertionSort` on that slice
    (both produce a permutation sorted by the axis comparator; `std::sort`
    is unstable, so ties are implementation-defined in C++ — any sorted
    permutation is a faithful model);
  * `std::mt19937` / `std::normal_distribution` draws are modelled by an
    abstract draw function `g : ℕ → ℕ → ℚ` (`g seed i` = i-th sample of the
    generator seeded with `seed`), and `sqrt` on scalars by an abstract
    `sq : ℚ → ℚ` constrained where it is used;
  * `Eigen::VectorXd` is a `List ℚ`; the size assertion of Eigen's
    `operator-` is modelled in a separate `Option`-valued layer
    (`sqDistE`, `nearestNeighborE`), `none` standing for the assertion
    failure / undefined behaviour on mismatched sizes.
-/
import Mathlib

set_option maxHeartbeats 1000000

/-- `DBL_MAX` = (2^53 − 1) · 2^971, the initial value of `best_dist`
(`std::numeric_limits<double>::max()`). -/
def maxDouble : ℚ := (2 ^ 53 - 1) * 2 ^ 971

/-- `(query - point).squaredNorm()` for equal-sized vectors: the sum of
squared coordinate differences. -/
def sqDist (q p : List ℚ) : ℚ := (List.zipWith (fun a b => (a - b) ^ 2) q p).sum

/-- `struct DataItem { std::string text; Point embedding; }`. -/
structure DataItem where
  text : String
  embedding : List ℚ
deriving DecidableEq, Repr

/-- Fallback item for out-of-range indexing in the model (never reached on
the index ranges the code uses). -/
def dummyItem : DataItem := ⟨"", []⟩

/-- The comparator `a.embedding(axis) < b.embedding(axis)` of
`KDTree::buildTree`, in the non-strict form that characterizes its sorted
output (a list sorted by the strict comparator is exactly a list that is
`Pairwise` under this non-strict one). -/
def axLe (axis : ℕ) (a b : DataItem) : Prop :=
  a.embedding.getD axis 0 ≤ b.embedding.getD axis 0

instance (axis : ℕ) : DecidableRel (axLe axis) := fun a b =>
  inferInstanceAs (Decidable (a.embedding.getD axis 0 ≤ b.embedding.getD axis 0))

instance (axis : ℕ) : IsTotal DataItem (axLe axis) :=
  ⟨fun a b => le_total (a.embedding.getD axis 0) (b.embedding.getD axis 0)⟩

instance (axis : ℕ) : IsTrans DataItem (axLe axis) :=
  ⟨fun _ _ _ hab hbc => le_trans hab hbc⟩

/-- `KDTree::Node`: point, text, split axis, and the two children;
`nil` models the null pointer. -/
inductive KTree where
  | nil : KTree
  | node (point : List ℚ) (text : String) (axis : ℕ) (left : KTree) (right : KTree) : KTree
deriving DecidableEq, Repr

/-- The items stored in a tree, pre-order (pivot, then left, then right). -/
def KTree.items : KTree → List DataItem
  | .nil => []
  | .node p t _ l r => ⟨t, p⟩ :: (l.items ++ r.items)

/-- `KDTree::buildTree(data, depth, start, end)`, functional reading: the
sub-slice `[start, end)` of the buffer is the list argument (the two
recursive calls touch disjoint sub-slices of the sorted slice, so passing
slices is equivalent to the in-place version, cf. `buildTreeMut` below).
`std::sort` (unstable: any sorted permutation may result) is modelled by
`insertionSort` with the non-strict comparator; the C++ recursion
terminates because each call handles a strictly shorter slice, and `fuel`
makes that measure an explicit structural argument (`fuel ≥ data.length`
at every call, so the `fuel = 0` branch is never taken from `buildTree`).
Note the leaf case: the node is built from `data[start]` ONLY — the
remaining `end - start - 1` items of the slice are not stored anywhere. -/
def buildTreeAux : ℕ → List DataItem → ℕ → ℕ → ℕ → KTree
  | _, [], _, _, _ => .nil
  | 0, _ :: _, _, _, _ => .nil
  | fuel + 1, d :: rest, depth, leafSize, dims =>
    let n := (d :: rest).length
    if n ≤ leafSize then
      -- `Node* leaf = new Node(data[start].embedding, data[start].text, 0);`
      KTree.node d.embedding d.text 0 .nil .nil
    else
      let axis := depth % dims
      let sorted := List.insertionSort (axLe axis) (d :: rest)
      let mid := n / 2
      KTree.node (sorted.getD mid dummyItem).embedding (sorted.getD mid dummyItem).text axis
        (buildTreeAux fuel (sorted.take mid) (depth + 1) leafSize dims)
        (buildTreeAux fuel (sorted.drop (mid + 1)) (depth + 1) leafSize dims)

/-- `KDTree::buildTree` entered on a whole slice. -/
def buildTree (data : List DataItem) (depth leafSize dims : ℕ) : KTree :=
  buildTreeAux data.length data depth leafSize dims

/-- The `KDTree` object: root, `dimensions`, `leaf_size`. -/
structure KDTreeS where
  root : KTree
  dims : ℕ
  leafSize : ℕ
deriving Repr

/-- The `KDTree` constructor: empty data gives an empty tree with
`dimensions = 0`; otherwise `dimensions = data[0].embedding.size()` and
`root = buildTree(data_copy, 0, 0, data_copy.size())`. -/
def KDTreeS.build (data : List DataItem) (leafSize : ℕ) : KDTreeS :=
  match data with
  | [] => ⟨.nil, 0, leafSize⟩
  | d :: rest => ⟨buildTree (d :: rest) 0 leafSize d.embedding.length, d.embedding.length, leafSize⟩

/-- `KDTree::nearestNeighbor`: update `best` with the node's point on
strict improvement, descend into the near child, and into the far child
only if `diff * diff < best_dist`.  The C++ picks `first`/`second`
pointers from the sign of `diff`; the two branches are written out here so
the recursion is structural. -/
def nearestNeighbor : KTree → List ℚ → ℚ × String → ℚ × String
  | .nil, _, best => best
  | .node p t a l r, q, best =>
    let dist := sqDist q p
    let best1 := if dist < best.1 then (dist, t) else best
    let diff := q.getD a 0 - p.getD a 0
    if diff < 0 then
      let best2 := nearestNeighbor l q best1
      if diff * diff < best2.1 then nearestNeighbor r q best2 else best2
    else
      let best2 := nearestNeighbor r q best1
      if diff * diff < best2.1 then nearestNeighbor l q best2 else best2

/-- `KDTree::nearest`: run the search from `best_dist = DBL_MAX`,
`best_text = ""`.  The C++ returns `(√best_dist, best_text)`; the model
returns the squared distance (see the header comment). -/
def KDTreeS.nearestSq (t : KDTreeS) (q : List ℚ) : ℚ × String :=
  nearestNeighbor t.root q (maxDouble, "")

/-- `LinearSearch::nearest`: exhaustive scan, strict improvement, first
seen wins.  The C++ compares true norms; strict comparison of true norms
agrees with strict comparison of squared norms, so the model folds over
squared distances (initial value `DBL_MAX`, as in the C++). -/
def linearNearestSq (data : List DataItem) (q : List ℚ) : ℚ × String :=
  data.foldl
    (fun best it =>
      let d := sqDist q it.embedding
      if d < best.1 then (d, it.text) else best)
    (maxDouble, "")

/-- The `std::pair<double, std::string>` comparison used by
`std::priority_queue`: lexicographic, distance first.  `String` comparison
is Lean's lexicographic order on characters, which agrees with
`std::string`'s byte order on ASCII text. -/
def pairLt (a b : ℚ × String) : Bool := a.1 < b.1 || (a.1 == b.1 && a.2 < b.2)

/-- The priority queue is modelled as its pop sequence: a list sorted in
non-increasing lexicographic order, head = `pq.top()` (the maximum).
`pqInsert` inserts while keeping that order; this is observationally exact
for `std::priority_queue`, whose successive pops yield the multiset in
non-increasing order (equal pairs are indistinguishable). -/
def pqInsert (x : ℚ × String) : List (ℚ × String) → List (ℚ × String)
  | [] => [x]
  | y :: ys => if pairLt y x then x :: y :: ys else y :: pqInsert x ys

/-- `pq.empty() ? std::numeric_limits<double>::max() : pq.top().first`. -/
def pqTopDist : List (ℚ × String) → ℚ
  | [] => maxDouble
  | top :: _ => top.1

/-- The heap update of `KDTree::kNearestNeighbors`: push when
`pq.size() < k`, otherwise pop-and-push when `dist < pq.top().first`.
When `pq.size() ≥ k` with k = 0 the C++ evaluates `pq.top()` on an EMPTY
priority queue — undefined behaviour, modelled as `none`. -/
def pqUpdate (x : ℚ × String) (pq : List (ℚ × String)) (k : ℕ) :
    Option (List (ℚ × String)) :=
  if pq.length < k then some (pqInsert x pq)
  else
    match pq with
    | [] => none  -- `pq.top()` on an empty queue: undefined behaviour
    | top :: rest => some (if x.1 < top.1 then pqInsert x rest else top :: rest)

/-- `KDTree::kNearestNeighbors`.  The far child is visited when
`diff * diff < largest_dist || pq.size() < k`. -/
def kNN : KTree → List ℚ → List (ℚ × String) → ℕ → Option (List (ℚ × String))
  | .nil, _, pq, _ => some pq
  | .node p t a l r, q, pq, k =>
    let dist := sqDist q p
    match pqUpdate (dist, t) pq k with
    | none => none
    | some pq1 =>
      let diff := q.getD a 0 - p.getD a 0
      if diff < 0 then
        match kNN l q pq1 k with
        | none => none
        | some pq2 =>
          if diff * diff < pqTopDist pq2 ∨ pq2.length < k then kNN r q pq2 k else some pq2
      else
        match kNN r q pq1 k with
        | none => none
        | some pq2 =>
          if diff * diff < pqTopDist pq2 ∨ pq2.length < k then kNN l q pq2 k else some pq2

/-- `KDTree::kNearest`: drain the heap top-first (giving the non-increasing
pop sequence, i.e. the model's `pq` itself) and reverse, so the result is
in non-decreasing order.  The C++ takes `√` of each distance while
draining; the model keeps squared distances (see the header comment). -/
def KDTreeS.kNearestSq (t : KDTreeS) (q : List ℚ) (k : ℕ) : Option (List (ℚ × String)) :=
  (kNN t.root q [] k).map List.reverse

/-! ### The Eigen size-assertion layer

`Eigen::VectorXd` subtraction asserts equal sizes at runtime; on a query
whose dimension differs from the stored points', `(query - node->point)`
is an assertion failure / undefined behaviour.  `none` models that. -/

/-- `(q - p).squaredNorm()` with Eigen's size assertion. -/
def sqDistE (q p : List ℚ) : Option ℚ :=
  if q.length = p.length then some (sqDist q p) else none

/-- `KDTree::nearestNeighbor`, with the Eigen size assertion made explicit.
Identical to `nearestNeighbor` except that reaching a subtraction of
mismatched vectors aborts (`none`). -/
def nearestNeighborE : KTree → List ℚ → ℚ × String → Option (ℚ × String)
  | .nil, _, best => some best
  | .node p t a l r, q, best =>
    match sqDistE q p with
    | none => none
    | some dist =>
      let best1 := if dist < best.1 then (dist, t) else best
      let diff := q.getD a 0 - p.getD a 0
      if diff < 0 then
        match nearestNeighborE l q best1 with
        | none => none
        | some best2 =>
          if diff * diff < best2.1 then nearestNeighborE r q best2 else some best2
      else
        match nearestNeighborE r q best1 with
        | none => none
        | some best2 =>
          if diff * diff < best2.1 then nearestNeighborE l q best2 else some best2

/-- `KDTree::nearest` in the size-assertion layer. -/
def KDTreeS.nearestE (t : KDTreeS) (q : List ℚ) : Option (ℚ × String) :=
  nearestNeighborE t.root q (maxDouble, "")

/-! ### The in-place constructor, with the buffer made explicit

`KDTree::buildTree` takes `std::vector<DataItem>& data` and sorts
sub-ranges in place; the constructor copies the caller's vector first.
State passing makes the mutation visible: `buildTreeMut` returns the tree
together with the buffer as left by the sorts. -/

/-- `std::sort(data.begin() + s, data.begin() + e, cmp)`: sort the
sub-range `[s, e)` in place, leave the rest of the buffer alone. -/
def sortRange (buf : List DataItem) (s e axis : ℕ) : List DataItem :=
  buf.take s ++ List.insertionSort (axLe axis) ((buf.drop s).take (e - s)) ++ buf.drop e

/-- `KDTree::buildTree(data, depth, start, end)` with the buffer passed
explicitly: returns the node and the buffer after the in-place sorts.
As in `buildTreeAux`, `fuel` is the structural form of the decreasing
range length `e − s` (`fuel ≥ e − s` at every call from `buildTreeMut`). -/
def buildTreeMutAux : ℕ → List DataItem → ℕ → ℕ → ℕ → ℕ → ℕ → KTree × List DataItem
  | 0, buf, _, _, _, _, _ => (.nil, buf)
  | fuel + 1, buf, depth, s, e, leafSize, dims =>
    if e ≤ s then (.nil, buf)
    else if e - s ≤ leafSize then
      (KTree.node (buf.getD s dummyItem).embedding (buf.getD s dummyItem).text 0 .nil .nil,
        buf)
    else
      let axis := depth % dims
      let buf1 := sortRange buf s e axis
      let mid := s + (e - s) / 2
      let piv := buf1.getD mid dummyItem
      let lres := buildTreeMutAux fuel buf1 (depth + 1) s mid leafSize dims
      let rres := buildTreeMutAux fuel lres.2 (depth + 1) (mid + 1) e leafSize dims
      (KTree.node piv.embedding piv.text axis lres.1 rres.1, rres.2)

/-- `KDTree::buildTree` on the buffer, entered on the range `[s, e)`. -/
def buildTreeMut (buf : List DataItem) (depth s e leafSize dims : ℕ) :
    KTree × List DataItem :=
  buildTreeMutAux (e - s) buf depth s e leafSize dims

/-- The `KDTree` constructor with the caller's vector kept in the state:
`data_copy` is a copy of the caller's data, `buildTree` mutates the copy,
and the caller's vector is returned as construction leaves it. -/
def kdConstruct (callerData : List DataItem) (leafSize : ℕ) :
    KDTreeS × List DataItem :=
  match callerData with
  | [] => (⟨.nil, 0, leafSize⟩, callerData)
  | d :: _ =>
    let dataCopy := callerData  -- `std::vector<DataItem> data_copy = data;`
    let res := buildTreeMut dataCopy 0 0 dataCopy.length leafSize d.embedding.length
    (⟨res.1, d.embedding.length, leafSize⟩, callerData)

/-! ### The deterministic embedder (`include/embeddings.h`)

`DeterministicEmbedder`'s entire instance state is `embedding_dim` and
`seed = 42`; the `mt19937` generator is a local of `getTokenEmbedding`,
re-seeded on every call.  Characters are handled at byte level in the C++
(`unsigned char`); the model uses the code point, which is the byte for
ASCII text. -/

/-- C-locale `isspace` (the characters `operator>>` skips):
space, \t, \n, \v, \f, \r. -/
def isSpaceC (c : Char) : Bool :=
  c = ' ' || c = '\t' || c = '\n' || c.toNat = 11 || c.toNat = 12 || c.toNat = 13

/-- C-locale `isalnum`: 0-9, A-Z, a-z. -/
def isAlnumC (c : Char) : Bool :=
  (48 ≤ c.toNat && c.toNat ≤ 57) || (65 ≤ c.toNat && c.toNat ≤ 90) ||
    (97 ≤ c.toNat && c.toNat ≤ 122)

/-- C-locale `tolower`: shift A-Z to a-z, leave everything else. -/
def toLowerC (c : Char) : Char :=
  if 65 ≤ c.toNat ∧ c.toNat ≤ 90 then Char.ofNat (c.toNat + 32) else c

/-- Split into maximal runs of non-whitespace (what repeated
`iss >> token` produces).  `acc` holds the current run, reversed. -/
def wordsAux : List Char → List Char → List (List Char)
  | [], acc => if acc = [] then [] else [acc.reverse]
  | c :: cs, acc =>
    if isSpaceC c then
      if acc = [] then wordsAux cs [] else acc.reverse :: wordsAux cs []
    else wordsAux cs (c :: acc)

/-- `DeterministicEmbedder::tokenize`: split on whitespace, lowercase each
token, erase non-alphanumeric characters, drop tokens that became empty. -/
def tokenize (s : String) : List String :=
  (((wordsAux s.data []).map fun w => (w.map toLowerC).filter isAlnumC).filter
    fun w => w ≠ []).map fun w => ⟨w⟩

/-- The byte values of a string (`static_cast<unsigned char>(str[i])`);
code points coincide with UTF-8 bytes for the ASCII strings at issue. -/
def strBytes (s : String) : List ℕ := s.data.map Char.toNat

/-- The loop of `DeterministicEmbedder::hashString`:
`hash = hash * 31 + byte` on `size_t`, wrapping at 2^64, indexed from `i`;
`fuel` is the structural form of the loop measure `bytes.length − i`. -/
def hashLoop : ℕ → List ℕ → ℕ → ℕ → ℕ
  | 0, _, _, h => h
  | fuel + 1, bytes, i, h =>
    if i < bytes.length then hashLoop fuel bytes (i + 1) ((h * 31 + bytes.getD i 0) % 2 ^ 64)
    else h

/-- `DeterministicEmbedder::hashString`: index loop from 0 with `hash = 0`. -/
def hashString (s : String) : ℕ := hashLoop (strBytes s).length (strBytes s) 0 0

/-- The hash as the spec words it: polynomial rolling hash with multiplier
31 over unsigned byte values, wrapping at the native unsigned word width
(64-bit `size_t`).  Stated as a fold, to be compared with the code's
indexed loop `hashString`. -/
def specHash (s : String) : ℕ := (strBytes s).foldl (fun h b => (h * 31 + b) % 2 ^ 64) 0

/-- The value `getTokenEmbedding` passes to the `mt19937` constructor:
`seed + hashString(token)`, an unsigned (`size_t`) addition. -/
def tokenSeed (seedv : ℕ) (tok : String) : ℕ := (seedv + hashString tok) % 2 ^ 64

/-- The seeding value as the claim words it: `global_seed XOR h(token)`. -/
def tokenSeedSpec (seedv : ℕ) (tok : String) : ℕ := Nat.xor seedv (specHash tok)

/-- `result.squaredNorm()`: sum of squared coordinates. -/
def sqNormV (v : List ℚ) : ℚ := (v.map fun x => x * x).sum

/-- Eigen's `vec.normalize()`: divide by the norm when the squared norm is
positive, else leave the vector.  `sq` is the abstract scalar square root
(see the header comment). -/
def normalizeV (sq : ℚ → ℚ) (v : List ℚ) : List ℚ :=
  if 0 < sqNormV v then v.map fun x => x / sq (sqNormV v) else v

/-- `DeterministicEmbedder::getTokenEmbedding`: seed a fresh generator with
`seed + hashString(token)`, draw `dim` standard-normal samples
(`g (tokenSeed seed tok) i` is the i-th draw), and normalize. -/
def getTokenEmbedding (sq : ℚ → ℚ) (g : ℕ → ℕ → ℚ) (seedv dim : ℕ) (tok : String) :
    List ℚ :=
  normalizeV sq ((List.range dim).map fun i => g (tokenSeed seedv tok) i)

/-- `Eigen::VectorXd::Zero(embedding_dim)`. -/
def zeroV (d : ℕ) : List ℚ := List.replicate d 0

/-- Coordinatewise `result += ...` (the operands always share length `dim`). -/
def addV (a b : List ℚ) : List ℚ := List.zipWith (· + ·) a b

/-- The accumulation loop of `getEmbedding`: sum of the token embeddings
starting from the zero vector. -/
def rawSum (sq : ℚ → ℚ) (g : ℕ → ℕ → ℚ) (seedv dim : ℕ) (t : String) : List ℚ :=
  (tokenize t).foldl (fun acc tok => addV acc (getTokenEmbedding sq g seedv dim tok))
    (zeroV dim)

/-- `DeterministicEmbedder::getEmbedding`: empty token list falls back to
`getTokenEmbedding(text)`; otherwise sum the token embeddings and divide
by the norm when `norm > 0`. -/
def getEmbedding (sq : ℚ → ℚ) (g : ℕ → ℕ → ℚ) (seedv dim : ℕ) (t : String) : List ℚ :=
  if tokenize t = [] then getTokenEmbedding sq g seedv dim t
  else
    let result := rawSum sq g seedv dim t
    let nrm := sq (sqNormV result)
    if 0 < nrm then result.map fun x => x / nrm else result

/-- A `DeterministicEmbedder` instance: its complete state. -/
structure Embedder where
  dim : ℕ
  seedv : ℕ
deriving DecidableEq, Repr

/-- `embed` on an instance (the query facade calls
`embedder.getEmbedding(text)`). -/
def Embedder.embed (e : Embedder) (sq : ℚ → ℚ) (g : ℕ → ℕ → ℚ) (t : String) : List ℚ :=
  getEmbedding sq g e.seedv e.dim t

/-! ### Invariants used by the correctness proofs -/

/-- Well-formedness of a tree over dimension `d`: every stored point has
length `d` and every stored axis is `< d`. -/
def KTree.WF (d : ℕ) : KTree → Prop
  | .nil => True
  | .node p _ a l r => p.length = d ∧ a < d ∧ l.WF d ∧ r.WF d

/-- The splitting-plane invariant: at every node, points in the left
subtree have axis coordinate `≤` the pivot's, points in the right subtree
`≥` (the sorted-slice construction groups equal coordinates on either
side, which is all the pruning argument needs). -/
def KTree.SplitOk : KTree → Prop
  | .nil => True
  | .node p _ a l r =>
    (∀ it ∈ l.items, it.embedding.getD a 0 ≤ p.getD a 0) ∧
      (∀ it ∈ r.items, p.getD a 0 ≤ it.embedding.getD a 0) ∧ l.SplitOk ∧ r.SplitOk

/-- The priority-queue representation invariant: the pop sequence is
non-increasing in the lexicographic pair order. -/
def PqSorted (pq : List (ℚ × String)) : Prop :=
  pq.Pairwise fun a b => pairLt a b = false

/-! ## Lemmas -/

theorem hashLoop_eq_foldl (fuel : ℕ) : ∀ (bytes : List ℕ) (i h : ℕ),
    bytes.length ≤ i + fuel →
    hashLoop fuel bytes i h = (bytes.drop i).foldl (fun h b => (h * 31 + b) % 2 ^ 64) h := by
  induction fuel with
  | zero =>
    intro bytes i h hle
    rw [List.drop_eq_nil_of_le (by omega)]
    rfl
  | succ fuel ih =>
    intro bytes i h hle
    rw [hashLoop]
    by_cases hi : i < bytes.length
    · rw [if_pos hi, ih bytes (i + 1) _ (by omega), List.drop_eq_getElem_cons hi,
        List.foldl_cons, List.getD_eq_getElem bytes 0 hi]
    · rw [if_neg hi, List.drop_eq_nil_of_le (by omega)]
      rfl

theorem hashString_eq_specHash (s : String) : hashString s = specHash s := by
  rw [hashString, specHash, hashLoop_eq_foldl (strBytes s).length (strBytes s) 0 0 (by omega),
    List.drop_zero]

/-! ## Claims -/

/-- Claim C1 (code bug): the leaf case of `buildTree` stores only
`data[start]` and silently drops the other `end − start − 1` items of the
slice, so with `leaf_size = 2` a two-item dataset builds a tree whose item
multiset is `[first item]`, not the input dataset: containment fails. -/
theorem claim_C1_leaf_drops_items :
    (KDTreeS.build [⟨"a", [0]⟩, ⟨"b", [1]⟩] 2).root.items = [⟨"a", [0]⟩] ∧
      ¬ (KDTreeS.build [⟨"a", [0]⟩, ⟨"b", [1]⟩] 2).root.items.Perm
        [⟨"a", [0]⟩, ⟨"b", [1]⟩] := by
  constructor
  · norm_num [KDTreeS.build, buildTree, buildTreeAux, KTree.items]
  · intro hperm
    have := hperm.length_eq
    rw [show (KDTreeS.build [⟨"a", [0]⟩, ⟨"b", [1]⟩] 2).root.items = [⟨"a", [0]⟩] by
      norm_num [KDTreeS.build, buildTree, buildTreeAux, KTree.items]] at this
    simp at this

/-- Claim C2 (code bug): because the leaf case drops items, the result of
`nearest` depends on `leaf_size`: on the dataset `a ↦ [0], b ↦ [1]` with
query `[1]`, `leaf_size = 1` finds `b` at squared distance 0 while
`leaf_size = 2` can only find `a`, at squared distance 1. -/
theorem claim_C2_leaf_size_changes_result :
    KDTreeS.nearestSq (KDTreeS.build [⟨"a", [0]⟩, ⟨"b", [1]⟩] 1) [1] = (0, "b") ∧
      KDTreeS.nearestSq (KDTreeS.build [⟨"a", [0]⟩, ⟨"b", [1]⟩] 2) [1] = (1, "a") := by
  constructor <;>
    norm_num [KDTreeS.build, buildTree, buildTreeAux, KDTreeS.nearestSq, nearestNeighbor,
      List.insertionSort, List.orderedInsert, axLe, sqDist, maxDouble, dummyItem]

/-- Claim C4, counterexample: `nearest` on a tree built from the empty
dataset does NOT fail — there is no `EmptyIndex` (or any other typed
error) anywhere in the code; the search leaves `best` untouched and the
call returns the ordinary pair `(DBL_MAX, "")` (the C++ then takes `√`). -/
theorem claim_C4_counterexample :
    KDTreeS.nearestSq (KDTreeS.build [] 1) [0] = (maxDouble, "") := rfl

/-- Claim C4 as amended: for every `leaf_size` and every query, `nearest`
on a tree built from the empty dataset returns the sentinel pair
`(DBL_MAX, "")` (i.e. `(√DBL_MAX, "")` after the boundary square root)
instead of failing with a typed `EmptyIndex` error. -/
theorem claim_C4_amended (ls : ℕ) (q : List ℚ) :
    KDTreeS.nearestSq (KDTreeS.build [] ls) q = (maxDouble, "") := rfl

/-- Claim C6, counterexample: `getTokenEmbedding` seeds the generator with
`seed + hashString(token)`, not `seed XOR hashString(token)`: on the token
`"a"` (hash 97, seed 42) the code's seed is 139 while the claim's is 75. -/
theorem claim_C6_counterexample : tokenSeed 42 "a" ≠ tokenSeedSpec 42 "a" := by decide

/-- Claim C6 as amended: `token_vector` seeds the generator with
`(global_seed + h(token)) mod 2^64` — addition, wrapping at the native
unsigned word width, not XOR — where `h` is exactly the hash the claim
describes: the polynomial rolling hash with multiplier 31 over unsigned
byte values, wrapping at the native unsigned word width (`specHash`,
stated as a fold of the spec's recurrence, equals the code's indexed-loop
`hashString`). -/
theorem claim_C6_amended (sq : ℚ → ℚ) (g : ℕ → ℕ → ℚ) (seedv dim : ℕ) (tok : String) :
    getTokenEmbedding sq g seedv dim tok =
      normalizeV sq ((List.range dim).map fun i => g ((seedv + specHash tok) % 2 ^ 64) i) := by
  rw [getTokenEmbedding, tokenSeed, hashString_eq_specHash]

/-- Claim C10: the constructor copies the caller's vector
(`std::vector<DataItem> data_copy = data;`) and hands the copy to
`buildTree`, so the caller's dataset is unchanged by construction (first
conjunct), even though `buildTree` really does reorder the buffer it is
given in place (second conjunct: a concrete buffer left permuted). -/
theorem claim_C10_construct_preserves_caller :
    (∀ (data : List DataItem) (ls : ℕ), (kdConstruct data ls).2 = data) ∧
      (buildTreeMut [⟨"a", [1]⟩, ⟨"b", [0]⟩] 0 0 2 1 1).2 ≠ [⟨"a", [1]⟩, ⟨"b", [0]⟩] := by
  constructor
  · intro data ls
    cases data <;> rfl
  · norm_num [buildTreeMut, buildTreeMutAux, sortRange, List.insertionSort, List.orderedInsert,
      axLe]

theorem getD_eq_getElem' {α : Type} (l : List α) (n : ℕ) (a : α) (h : n < l.length) :
    l.getD n a = l[n] := by
  simp [List.getD_eq_getElem?_getD, List.getElem?_eq_getElem h]

theorem items_buildTreeAux_subset :
    ∀ (fuel : ℕ) (data : List DataItem) (depth ls dims : ℕ) (it : DataItem),
      it ∈ (buildTreeAux fuel data depth ls dims).items → it ∈ data := by
  intro fuel
  induction fuel with
  | zero =>
    intro data depth ls dims it hmem
    cases data <;> simp [buildTreeAux, KTree.items] at hmem
  | succ fuel ih =>
    intro data depth ls dims it hmem
    match data with
    | [] => simp [buildTreeAux, KTree.items] at hmem
    | d :: rest =>
      rw [buildTreeAux] at hmem
      by_cases hleaf : (d :: rest).length ≤ ls
      · rw [if_pos hleaf] at hmem
        simp [KTree.items] at hmem
        simp [hmem]
      · rw [if_neg hleaf] at hmem
        simp only [KTree.items, List.mem_cons, List.mem_append] at hmem
        set axis := depth % dims with haxis
        set sorted := List.insertionSort (axLe axis) (d :: rest) with hsorted
        have hperm : sorted.Perm (d :: rest) := List.perm_insertionSort _ _
        have hlen : sorted.length = (d :: rest).length := hperm.length_eq
        have hmid : (d :: rest).length / 2 < sorted.length := by
          rw [hlen]; exact Nat.div_lt_self (by simp) (by omega)
        rcases hmem with hpiv | hl | hr
        · rw [hpiv, getD_eq_getElem' _ _ _ hmid]
          exact hperm.mem_iff.mp (List.getElem_mem hmid)
        · exact hperm.mem_iff.mp (List.mem_of_mem_take (ih _ _ _ _ _ hl))
        · exact hperm.mem_iff.mp (List.mem_of_mem_drop (ih _ _ _ _ _ hr))

theorem items_buildTree_subset (data : List DataItem) (depth ls dims : ℕ) (it : DataItem)
    (h : it ∈ (buildTree data depth ls dims).items) : it ∈ data :=
  items_buildTreeAux_subset _ _ _ _ _ _ h

theorem items_buildTreeAux_perm_one :
    ∀ (fuel : ℕ) (data : List DataItem) (depth dims : ℕ), data.length ≤ fuel →
      (buildTreeAux fuel data depth 1 dims).items.Perm data := by
  intro fuel
  induction fuel with
  | zero =>
    intro data depth dims hle
    match data with
    | [] => simp [buildTreeAux, KTree.items]
    | d :: rest => simp at hle
  | succ fuel ih =>
    intro data depth dims hle
    match data with
    | [] => simp [buildTreeAux, KTree.items]
    | d :: rest =>
      rw [buildTreeAux]
      by_cases hleaf : (d :: rest).length ≤ 1
      · rw [if_pos hleaf]
        have : rest = [] := by
          cases rest with
          | nil => rfl
          | cons e tl => simp at hleaf
        subst this
        simp [KTree.items]
      · rw [if_neg hleaf]
        simp only [KTree.items]
        set axis := depth % dims with haxis
        set sorted := List.insertionSort (axLe axis) (d :: rest) with hsorted
        set n := (d :: rest).length with hn
        set mid := n / 2 with hmid
        have hperm : sorted.Perm (d :: rest) := List.perm_insertionSort _ _
        have hlen : sorted.length = n := hperm.length_eq
        have hmidlt : mid < sorted.length := by
          rw [hlen]; exact Nat.div_lt_self (by simp [hn]) (by omega)
        have hl : (buildTreeAux fuel (sorted.take mid) (depth + 1) 1 dims).items.Perm
            (sorted.take mid) := by
          apply ih
          simp only [List.length_take]
          omega
        have hr : (buildTreeAux fuel (sorted.drop (mid + 1)) (depth + 1) 1 dims).items.Perm
            (sorted.drop (mid + 1)) := by
          apply ih
          simp only [List.length_drop]
          have hn2 : 2 ≤ n := by simp only [hn] at hleaf ⊢; omega
          omega
        have hsplit : sorted = sorted.take mid ++ sorted[mid] :: sorted.drop (mid + 1) := by
          conv_lhs => rw [← List.take_append_drop mid sorted]
          rw [List.drop_eq_getElem_cons hmidlt]
        rw [getD_eq_getElem' _ _ _ hmidlt]
        have h1 : (sorted[mid] ::
              ((buildTreeAux fuel (sorted.take mid) (depth + 1) 1 dims).items ++
                (buildTreeAux fuel (sorted.drop (mid + 1)) (depth + 1) 1 dims).items)).Perm
            (sorted[mid] :: (sorted.take mid ++ sorted.drop (mid + 1))) :=
          List.Perm.cons _ (hl.append hr)
        have h2 : (sorted.take mid ++ sorted[mid] :: sorted.drop (mid + 1)).Perm (d :: rest) := by
          rw [← hsplit]
          exact hperm
        exact (h1.trans List.perm_middle.symm).trans h2

theorem items_length_of_wf (d : ℕ) :
    ∀ t : KTree, t.WF d → ∀ it ∈ t.items, it.embedding.length = d := by
  intro t
  induction t with
  | nil => intro _ it hmem; simp [KTree.items] at hmem
  | node p tx a l r ihl ihr =>
    intro hwf it hmem
    obtain ⟨hp, _, hwl, hwr⟩ := hwf
    simp only [KTree.items, List.mem_cons, List.mem_append] at hmem
    rcases hmem with h | h | h
    · rw [h]; exact hp
    · exact ihl hwl it h
    · exact ihr hwr it h

theorem buildTreeAux_wf :
    ∀ (fuel : ℕ) (data : List DataItem) (depth ls dims : ℕ), 0 < dims →
      (∀ it ∈ data, it.embedding.length = dims) →
      (buildTreeAux fuel data depth ls dims).WF dims := by
  intro fuel
  induction fuel with
  | zero =>
    intro data depth ls dims hd hlen
    cases data <;> simp [buildTreeAux, KTree.WF]
  | succ fuel ih =>
    intro data depth ls dims hd hlen
    match data with
    | [] => simp [buildTreeAux, KTree.WF]
    | d :: rest =>
      rw [buildTreeAux]
      by_cases hleaf : (d :: rest).length ≤ ls
      · rw [if_pos hleaf]
        exact ⟨hlen d (by simp), hd, trivial, trivial⟩
      · rw [if_neg hleaf]
        set axis := depth % dims with haxis
        set sorted := List.insertionSort (axLe axis) (d :: rest) with hsorted
        have hperm : sorted.Perm (d :: rest) := List.perm_insertionSort _ _
        have hmidlt : (d :: rest).length / 2 < sorted.length := by
          rw [hperm.length_eq]; exact Nat.div_lt_self (by simp) (by omega)
        have hsortlen : ∀ it ∈ sorted, it.embedding.length = dims := fun it hmem =>
          hlen it (hperm.mem_iff.mp hmem)
        refine ⟨?_, Nat.mod_lt _ hd, ?_, ?_⟩
        · rw [getD_eq_getElem' _ _ _ hmidlt]
          exact hsortlen _ (List.getElem_mem hmidlt)
        · exact ih _ _ _ _ hd fun it hmem => hsortlen it (List.mem_of_mem_take hmem)
        · exact ih _ _ _ _ hd fun it hmem => hsortlen it (List.mem_of_mem_drop hmem)

theorem buildTreeAux_splitOk :
    ∀ (fuel : ℕ) (data : List DataItem) (depth ls dims : ℕ),
      (buildTreeAux fuel data depth ls dims).SplitOk := by
  intro fuel
  induction fuel with
  | zero =>
    intro data depth ls dims
    cases data <;> simp [buildTreeAux, KTree.SplitOk]
  | succ fuel ih =>
    intro data depth ls dims
    match data with
    | [] => simp [buildTreeAux, KTree.SplitOk]
    | d :: rest =>
      rw [buildTreeAux]
      by_cases hleaf : (d :: rest).length ≤ ls
      · rw [if_pos hleaf]
        exact ⟨by simp [KTree.items], by simp [KTree.items], trivial, trivial⟩
      · rw [if_neg hleaf]
        set axis := depth % dims with haxis
        set sorted := List.insertionSort (axLe axis) (d :: rest) with hsorted
        set mid := (d :: rest).length / 2 with hmid
        have hmidlt : mid < sorted.length := by
          rw [(List.perm_insertionSort _ _).length_eq]
          exact Nat.div_lt_self (by simp) (by omega)
        have hsort : sorted.Pairwise (axLe axis) := List.sorted_insertionSort _ _
        have hpivmem : sorted[mid] ∈ sorted.drop mid := by
          rw [List.drop_eq_getElem_cons hmidlt]
          exact List.mem_cons_self _ _
        refine ⟨?_, ?_, ih _ _ _ _, ih _ _ _ _⟩
        · intro it hit
          have hmem : it ∈ sorted.take mid := items_buildTreeAux_subset _ _ _ _ _ _ hit
          have hpair :
              ∀ x ∈ sorted.take mid, ∀ y ∈ sorted.drop mid, axLe axis x y := by
            have := hsort
            rw [← List.take_append_drop mid sorted, List.pairwise_append] at this
            exact this.2.2
          have hle := hpair it hmem _ hpivmem
          rw [getD_eq_getElem' _ _ _ hmidlt]
          exact hle
        · intro it hit
          have hmem : it ∈ sorted.drop (mid + 1) := items_buildTreeAux_subset _ _ _ _ _ _ hit
          have hdrop : (sorted.drop mid).Pairwise (axLe axis) :=
            List.Pairwise.sublist (List.drop_sublist mid sorted) hsort
          rw [List.drop_eq_getElem_cons hmidlt, List.pairwise_cons] at hdrop
          have hle := hdrop.1 it hmem
          rw [getD_eq_getElem' _ _ _ hmidlt]
          exact hle

theorem sq_term_le_sqDist (q p : List ℚ) (a : ℕ) (ha : a < q.length)
    (hl : q.length = p.length) : (q.getD a 0 - p.getD a 0) ^ 2 ≤ sqDist q p := by
  have hap : a < p.length := by omega
  have hz : a < (List.zipWith (fun x y => (x - y) ^ 2) q p).length := by
    rw [List.length_zipWith]
    omega
  have hget : (List.zipWith (fun x y => (x - y) ^ 2) q p)[a] = (q[a] - p[a]) ^ 2 :=
    List.getElem_zipWith
  have hmem : (q.getD a 0 - p.getD a 0) ^ 2 ∈ List.zipWith (fun x y => (x - y) ^ 2) q p := by
    rw [getD_eq_getElem' _ _ _ ha, getD_eq_getElem' _ _ _ hap, ← hget]
    exact List.getElem_mem hz
  have hnonneg : ∀ x ∈ List.zipWith (fun x y => (x - y) ^ 2) q p, (0 : ℚ) ≤ x := by
    intro x hx
    obtain ⟨i, hi, hxi⟩ := List.mem_iff_getElem.mp hx
    rw [← hxi, List.getElem_zipWith]
    exact sq_nonneg _
  exact List.single_le_sum hnonneg _ hmem

theorem nearestNeighbor_bound (d : ℕ) (q : List ℚ) (hq : q.length = d) :
    ∀ t : KTree, t.WF d → t.SplitOk → ∀ best : ℚ × String,
      (nearestNeighbor t q best).1 ≤ best.1 ∧
        ∀ it ∈ t.items, (nearestNeighbor t q best).1 ≤ sqDist q it.embedding := by
  intro t
  induction t with
  | nil =>
    intro _ _ best
    exact ⟨le_refl _, by simp [KTree.items, nearestNeighbor]⟩
  | node p tx a l r ihl ihr =>
    intro hwf hs best
    obtain ⟨hp, ha, hwl, hwr⟩ := hwf
    obtain ⟨hsl, hsr, hssl, hssr⟩ := hs
    simp only [nearestNeighbor]
    set dist := sqDist q p with hdist
    set best1 : ℚ × String := if dist < best.1 then (dist, tx) else best with hbest1
    have hb1 : best1.1 ≤ best.1 ∧ best1.1 ≤ dist := by
      rw [hbest1]
      split_ifs with h
      · exact ⟨le_of_lt h, le_refl _⟩
      · exact ⟨le_refl _, le_of_not_lt h⟩
    set diff := q.getD a 0 - p.getD a 0 with hdiff
    by_cases hneg : diff < 0
    · rw [if_pos hneg]
      obtain ⟨hm2, hall2⟩ := ihl hwl hssl best1
      set best2 := nearestNeighbor l q best1 with hbest2
      by_cases hprune : diff * diff < best2.1
      · rw [if_pos hprune]
        obtain ⟨hm3, hall3⟩ := ihr hwr hssr best2
        refine ⟨le_trans hm3 (le_trans hm2 hb1.1), ?_⟩
        intro it hit
        simp only [KTree.items, List.mem_cons, List.mem_append] at hit
        rcases hit with rfl | hit | hit
        · exact le_trans hm3 (le_trans hm2 hb1.2)
        · exact le_trans hm3 (hall2 it hit)
        · exact hall3 it hit
      · rw [if_neg hprune]
        refine ⟨le_trans hm2 hb1.1, ?_⟩
        intro it hit
        simp only [KTree.items, List.mem_cons, List.mem_append] at hit
        rcases hit with rfl | hit | hit
        · exact le_trans hm2 hb1.2
        · exact hall2 it hit
        · -- pruned far (right) side: its points are at least diff² away
          have hcoord : p.getD a 0 ≤ it.embedding.getD a 0 := hsr it hit
          have hlen : it.embedding.length = d := items_length_of_wf d r hwr it hit
          have hu : q.getD a 0 - it.embedding.getD a 0 ≤ diff := by
            rw [hdiff]
            linarith
          have hsq : diff ^ 2 ≤ (q.getD a 0 - it.embedding.getD a 0) ^ 2 := by
            have h1 : -(-(q.getD a 0 - it.embedding.getD a 0)) ≤ diff := by linarith
            have h2 : diff ≤ -(q.getD a 0 - it.embedding.getD a 0) := by
              have : q.getD a 0 - it.embedding.getD a 0 < 0 := lt_of_le_of_lt hu hneg
              linarith
            calc diff ^ 2 ≤ (-(q.getD a 0 - it.embedding.getD a 0)) ^ 2 := sq_le_sq' h1 h2
              _ = (q.getD a 0 - it.embedding.getD a 0) ^ 2 := neg_sq _
          have hterm := sq_term_le_sqDist q it.embedding a (by omega) (by omega)
          calc best2.1 ≤ diff * diff := le_of_not_lt hprune
            _ = diff ^ 2 := (pow_two diff).symm
            _ ≤ (q.getD a 0 - it.embedding.getD a 0) ^ 2 := hsq
            _ ≤ sqDist q it.embedding := hterm
    · rw [if_neg hneg]
      obtain ⟨hm2, hall2⟩ := ihr hwr hssr best1
      set best2 := nearestNeighbor r q best1 with hbest2
      by_cases hprune : diff * diff < best2.1
      · rw [if_pos hprune]
        obtain ⟨hm3, hall3⟩ := ihl hwl hssl best2
        refine ⟨le_trans hm3 (le_trans hm2 hb1.1), ?_⟩
        intro it hit
        simp only [KTree.items, List.mem_cons, List.mem_append] at hit
        rcases hit with rfl | hit | hit
        · exact le_trans hm3 (le_trans hm2 hb1.2)
        · exact hall3 it hit
        · exact le_trans hm3 (hall2 it hit)
      · rw [if_neg hprune]
        refine ⟨le_trans hm2 hb1.1, ?_⟩
        intro it hit
        simp only [KTree.items, List.mem_cons, List.mem_append] at hit
        rcases hit with rfl | hit | hit
        · exact le_trans hm2 hb1.2
        · -- pruned far (left) side
          have hcoord : it.embedding.getD a 0 ≤ p.getD a 0 := hsl it hit
          have hlen : it.embedding.length = d := items_length_of_wf d l hwl it hit
          have hpos : 0 ≤ diff := le_of_not_lt hneg
          have hu : diff ≤ q.getD a 0 - it.embedding.getD a 0 := by
            rw [hdiff]
            linarith
          have hsq : diff ^ 2 ≤ (q.getD a 0 - it.embedding.getD a 0) ^ 2 := by
            refine sq_le_sq' (by linarith) hu
          have hterm := sq_term_le_sqDist q it.embedding a (by omega) (by omega)
          calc best2.1 ≤ diff * diff := le_of_not_lt hprune
            _ = diff ^ 2 := (pow_two diff).symm
            _ ≤ (q.getD a 0 - it.embedding.getD a 0) ^ 2 := hsq
            _ ≤ sqDist q it.embedding := hterm
        · exact hall2 it hit

theorem nearestNeighbor_mem (q : List ℚ) :
    ∀ (t : KTree) (best : ℚ × String),
      nearestNeighbor t q best = best ∨
        ∃ it ∈ t.items, nearestNeighbor t q best = (sqDist q it.embedding, it.text) := by
  intro t
  induction t with
  | nil => intro best; exact Or.inl rfl
  | node p tx a l r ihl ihr =>
    intro best
    simp only [nearestNeighbor]
    set dist := sqDist q p with hdist
    set best1 : ℚ × String := if dist < best.1 then (dist, tx) else best with hbest1
    have hb1 : best1 = best ∨
        ∃ it ∈ (KTree.node p tx a l r).items, best1 = (sqDist q it.embedding, it.text) := by
      rw [hbest1]
      split_ifs with h
      · exact Or.inr ⟨⟨tx, p⟩, by simp [KTree.items], rfl⟩
      · exact Or.inl rfl
    set diff := q.getD a 0 - p.getD a 0 with hdiff
    have hsubl : ∀ it ∈ l.items, it ∈ (KTree.node p tx a l r).items := by
      intro it hit
      simp [KTree.items, hit]
    have hsubr : ∀ it ∈ r.items, it ∈ (KTree.node p tx a l r).items := by
      intro it hit
      simp [KTree.items, hit]
    have step : ∀ (near far : KTree),
        (∀ it ∈ near.items, it ∈ (KTree.node p tx a l r).items) →
        (∀ it ∈ far.items, it ∈ (KTree.node p tx a l r).items) →
        (∀ b : ℚ × String, nearestNeighbor near q b = b ∨
          ∃ it ∈ near.items, nearestNeighbor near q b = (sqDist q it.embedding, it.text)) →
        (∀ b : ℚ × String, nearestNeighbor far q b = b ∨
          ∃ it ∈ far.items, nearestNeighbor far q b = (sqDist q it.embedding, it.text)) →
        ((if diff * diff < (nearestNeighbor near q best1).1 then
            nearestNeighbor far q (nearestNeighbor near q best1)
          else nearestNeighbor near q best1) = best ∨
          ∃ it ∈ (KTree.node p tx a l r).items,
            (if diff * diff < (nearestNeighbor near q best1).1 then
              nearestNeighbor far q (nearestNeighbor near q best1)
            else nearestNeighbor near q best1) = (sqDist q it.embedding, it.text)) := by
      intro near far hnear hfar ihn ihf
      have h2 : nearestNeighbor near q best1 = best ∨
          ∃ it ∈ (KTree.node p tx a l r).items,
            nearestNeighbor near q best1 = (sqDist q it.embedding, it.text) := by
        rcases ihn best1 with h | ⟨it, hit, heq⟩
        · rw [h]
          exact hb1
        · exact Or.inr ⟨it, hnear it hit, heq⟩
      split_ifs with hprune
      · rcases ihf (nearestNeighbor near q best1) with h | ⟨it, hit, heq⟩
        · rw [h]
          exact h2
        · exact Or.inr ⟨it, hfar it hit, heq⟩
      · exact h2
    by_cases hneg : diff < 0
    · rw [if_pos hneg]
      exact step l r hsubl hsubr ihl ihr
    · rw [if_neg hneg]
      exact step r l hsubr hsubl ihr ihl

theorem linearFold_bound (q : List ℚ) :
    ∀ (data : List DataItem) (best : ℚ × String),
      (data.foldl
          (fun best it =>
            let dd := sqDist q it.embedding
            if dd < best.1 then (dd, it.text) else best) best).1 ≤ best.1 ∧
        (∀ it ∈ data,
          (data.foldl
            (fun best it =>
              let dd := sqDist q it.embedding
              if dd < best.1 then (dd, it.text) else best) best).1 ≤ sqDist q it.embedding) ∧
        (data.foldl
            (fun best it =>
              let dd := sqDist q it.embedding
              if dd < best.1 then (dd, it.text) else best) best = best ∨
          ∃ it ∈ data,
            data.foldl
              (fun best it =>
                let dd := sqDist q it.embedding
                if dd < best.1 then (dd, it.text) else best) best =
              (sqDist q it.embedding, it.text)) := by
  intro data
  induction data with
  | nil => intro best; exact ⟨le_refl _, by simp, Or.inl rfl⟩
  | cons d0 rest ih =>
    intro best
    simp only [List.foldl_cons]
    set best1 : ℚ × String :=
      if sqDist q d0.embedding < best.1 then (sqDist q d0.embedding, d0.text) else best with hb1
    have hmono : best1.1 ≤ best.1 ∧ best1.1 ≤ sqDist q d0.embedding := by
      rw [hb1]
      split_ifs with h
      · exact ⟨le_of_lt h, le_refl _⟩
      · exact ⟨le_refl _, le_of_not_lt h⟩
    obtain ⟨ihm, ihall, ihmem⟩ := ih best1
    refine ⟨le_trans ihm hmono.1, ?_, ?_⟩
    · intro it hit
      rcases List.mem_cons.mp hit with rfl | hit
      · exact le_trans ihm hmono.2
      · exact ihall it hit
    · rcases ihmem with h | ⟨it, hit, heq⟩
      · rw [h, hb1]
        split_ifs with hc
        · exact Or.inr ⟨d0, List.mem_cons_self _ _, rfl⟩
        · exact Or.inl rfl
      · exact Or.inr ⟨it, List.mem_cons_of_mem _ hit, heq⟩

/-- Claim C3: on any dataset (of size ≤ 1000; the bound is not needed) of
consistent dimension `d ≥ 1` and any query of dimension `d`, the KD-tree
built with the constructor's default `leaf_size = 1` agrees with the
linear scanner: the texts agree or the two results are at equal distance
from the query.  Proved in the strong form that the squared distances are
always equal (equality of squared distances is equality of Euclidean
distances). -/
theorem claim_C3_oracle_agreement (data : List DataItem) (q : List ℚ) (d : ℕ)
    (hd : 0 < d) (hlen : ∀ it ∈ data, it.embedding.length = d) (hq : q.length = d)
    (hsize : data.length ≤ 1000) :
    (KDTreeS.nearestSq (KDTreeS.build data 1) q).2 = (linearNearestSq data q).2 ∨
      (KDTreeS.nearestSq (KDTreeS.build data 1) q).1 = (linearNearestSq data q).1 := by
  match data with
  | [] => exact Or.inl rfl
  | d0 :: rest =>
    refine Or.inr ?_
    have hdim : d0.embedding.length = d := hlen d0 (by simp)
    have hkd : KDTreeS.nearestSq (KDTreeS.build (d0 :: rest) 1) q =
        nearestNeighbor (buildTree (d0 :: rest) 0 1 d0.embedding.length) q (maxDouble, "") := rfl
    set T := buildTree (d0 :: rest) 0 1 d0.embedding.length with hT
    have hwf : T.WF d := by
      rw [hT, buildTree, hdim]
      exact buildTreeAux_wf _ _ _ _ _ hd hlen
    have hsplit : T.SplitOk := buildTreeAux_splitOk _ _ _ _ _
    have hperm : T.items.Perm (d0 :: rest) := by
      rw [hT, buildTree]
      exact items_buildTreeAux_perm_one _ _ _ _ (le_refl _)
    obtain ⟨hkmono, hkall⟩ :=
      nearestNeighbor_bound d q hq T hwf hsplit (maxDouble, "")
    have hkmem := nearestNeighbor_mem q T (maxDouble, "")
    obtain ⟨hlmono, hlall, hlmem⟩ := linearFold_bound q (d0 :: rest) (maxDouble, "")
    rw [hkd]
    set kd := nearestNeighbor T q (maxDouble, "") with hkddef
    set lin := (d0 :: rest).foldl
      (fun best it =>
        let dd := sqDist q it.embedding
        if dd < best.1 then (dd, it.text) else best) ((maxDouble : ℚ), "") with hlindef
    have hlin : linearNearestSq (d0 :: rest) q = lin := rfl
    rw [hlin]
    apply le_antisymm
    · rcases hlmem with h | ⟨it, hit, heq⟩
      · rw [h]
        exact hkmono
      · rw [heq]
        exact hkall it (hperm.mem_iff.mpr hit)
    · rcases hkmem with h | ⟨it, hit, heq⟩
      · rw [h]
        exact hlmono
      · rw [heq]
        exact hlall it (hperm.mem_iff.mp hit)

/-- Witness for C3 at a concrete input. -/
theorem claim_C3_oracle_agreement_witness :
    (KDTreeS.nearestSq (KDTreeS.build [⟨"a", [0]⟩, ⟨"b", [1]⟩] 1) [0]).2 =
        (linearNearestSq [⟨"a", [0]⟩, ⟨"b", [1]⟩] [0]).2 ∨
      (KDTreeS.nearestSq (KDTreeS.build [⟨"a", [0]⟩, ⟨"b", [1]⟩] 1) [0]).1 =
        (linearNearestSq [⟨"a", [0]⟩, ⟨"b", [1]⟩] [0]).1 :=
  claim_C3_oracle_agreement [⟨"a", [0]⟩, ⟨"b", [1]⟩] [0] 1 (by decide)
    (by decide) (by decide) (by decide)

theorem pairLt_iff (a b : ℚ × String) :
    pairLt a b = true ↔ a.1 < b.1 ∨ (a.1 = b.1 ∧ a.2 < b.2) := by
  simp [pairLt, Bool.or_eq_true, Bool.and_eq_true, decide_eq_true_eq, beq_iff_eq]

theorem pairLt_false_iff (a b : ℚ × String) :
    pairLt a b = false ↔ ¬(a.1 < b.1 ∨ (a.1 = b.1 ∧ a.2 < b.2)) := by
  rw [← pairLt_iff]
  simp

theorem pairLt_trans {a b c : ℚ × String} (h1 : pairLt a b = true)
    (h2 : pairLt b c = true) : pairLt a c = true := by
  rw [pairLt_iff] at h1 h2 ⊢
  rcases h1 with h1 | ⟨h1e, h1s⟩ <;> rcases h2 with h2 | ⟨h2e, h2s⟩
  · exact Or.inl (lt_trans h1 h2)
  · exact Or.inl (h2e ▸ h1)
  · exact Or.inl (h1e ▸ h2)
  · exact Or.inr ⟨h1e.trans h2e, lt_trans h1s h2s⟩

theorem pairLt_asymm {a b : ℚ × String} (h : pairLt a b = true) : pairLt b a = false := by
  rw [pairLt_iff] at h
  rw [pairLt_false_iff]
  rcases h with h | ⟨he, hs⟩
  · rintro (h' | ⟨h'e, _⟩)
    · exact absurd h (lt_asymm h')
    · exact absurd h (h'e ▸ lt_irrefl _)
  · rintro (h' | ⟨_, h's⟩)
    · exact absurd h' (he ▸ lt_irrefl _)
    · exact absurd hs (lt_asymm h's)

theorem pairLt_false_of {x y z : ℚ × String} (h1 : pairLt y x = true)
    (h2 : pairLt y z = false) : pairLt x z = false := by
  cases hxz : pairLt x z with
  | false => rfl
  | true => exact absurd (pairLt_trans h1 hxz) (by rw [h2]; simp)

theorem not_pairLt_fst_le {a b : ℚ × String} (h : pairLt a b = false) : b.1 ≤ a.1 := by
  rw [pairLt_false_iff] at h
  push_neg at h
  exact h.1

theorem mem_pqInsert {x z : ℚ × String} :
    ∀ pq : List (ℚ × String), z ∈ pqInsert x pq → z = x ∨ z ∈ pq := by
  intro pq
  induction pq with
  | nil => intro h; simp [pqInsert] at h; exact Or.inl h
  | cons y ys ih =>
    intro h
    rw [pqInsert] at h
    split_ifs at h with hc
    · rcases List.mem_cons.mp h with h | h
      · exact Or.inl h
      · exact Or.inr h
    · rcases List.mem_cons.mp h with h | h
      · exact Or.inr (h ▸ List.mem_cons_self _ _)
      · rcases ih h with h | h
        · exact Or.inl h
        · exact Or.inr (List.mem_cons_of_mem _ h)

theorem pqInsert_sorted (x : ℚ × String) :
    ∀ pq : List (ℚ × String), PqSorted pq → PqSorted (pqInsert x pq) := by
  intro pq
  induction pq with
  | nil => intro _; simp [pqInsert, PqSorted]
  | cons y ys ih =>
    intro hs
    have hys : PqSorted ys := (List.pairwise_cons.mp hs).2
    have hyall : ∀ z ∈ ys, pairLt y z = false := (List.pairwise_cons.mp hs).1
    rw [pqInsert]
    split_ifs with hc
    · refine List.pairwise_cons.mpr ⟨?_, hs⟩
      intro z hz
      rcases List.mem_cons.mp hz with rfl | hz
      · exact pairLt_asymm hc
      · exact pairLt_false_of hc (hyall z hz)
    · refine List.pairwise_cons.mpr ⟨?_, ih hys⟩
      intro z hz
      rcases mem_pqInsert ys hz with rfl | hz
      · exact Bool.eq_false_iff.mpr fun h => hc h
      · exact hyall z hz

theorem length_pqInsert (x : ℚ × String) :
    ∀ pq : List (ℚ × String), (pqInsert x pq).length = pq.length + 1 := by
  intro pq
  induction pq with
  | nil => rfl
  | cons y ys ih =>
    rw [pqInsert]
    split_ifs <;> simp [ih]

theorem pqUpdate_sorted {x : ℚ × String} {pq pq1 : List (ℚ × String)} {k : ℕ}
    (hs : PqSorted pq) (h : pqUpdate x pq k = some pq1) : PqSorted pq1 := by
  rw [pqUpdate.eq_def] at h
  split_ifs at h with hc
  · cases h
    exact pqInsert_sorted x pq hs
  · match pq, h with
    | top :: rest, h =>
      cases h
      split_ifs with hd
      · exact pqInsert_sorted x rest (List.pairwise_cons.mp hs).2
      · exact hs

theorem kNN_sorted (q : List ℚ) (k : ℕ) :
    ∀ (t : KTree) (pq pq' : List (ℚ × String)), PqSorted pq →
      kNN t q pq k = some pq' → PqSorted pq' := by
  intro t
  induction t with
  | nil =>
    intro pq pq' hs heq
    rw [kNN] at heq
    cases heq
    exact hs
  | node p tx a l r ihl ihr =>
    intro pq pq' hs heq
    rw [kNN] at heq
    simp only at heq
    match hupd : pqUpdate (sqDist q p, tx) pq k, heq with
    | some pq1, heq =>
      have hs1 : PqSorted pq1 := pqUpdate_sorted hs hupd
      simp only at heq
      split_ifs at heq with hneg
      · match hrec : kNN l q pq1 k, heq with
        | some pq2, heq =>
          have hs2 : PqSorted pq2 := ihl pq1 pq2 hs1 hrec
          simp only at heq
          split_ifs at heq with hcond
          · exact ihr pq2 pq' hs2 heq
          · cases heq
            exact hs2
        | none, heq => exact Option.noConfusion heq
      · match hrec : kNN r q pq1 k, heq with
        | some pq2, heq =>
          have hs2 : PqSorted pq2 := ihr pq1 pq2 hs1 hrec
          simp only at heq
          split_ifs at heq with hcond
          · exact ihl pq2 pq' hs2 heq
          · cases heq
            exact hs2
        | none, heq => exact Option.noConfusion heq
    | none, heq => exact Option.noConfusion heq

/-- Claim C7: whenever `k_nearest` returns (it does not return only in the
k = 0 undefined-behaviour case, see C5), the returned sequence is
non-decreasing in distance: the drain of the max-heap is its non-increasing
pop sequence, and the final reverse makes it non-decreasing.  Stated on
squared distances; `√` is monotone, so the C++'s reported distances are
non-decreasing as well. -/
theorem claim_C7_kNearest_sorted (data : List DataItem) (ls : ℕ) (q : List ℚ) (k : ℕ)
    (res : List (ℚ × String))
    (h : KDTreeS.kNearestSq (KDTreeS.build data ls) q k = some res) :
    res.Pairwise fun a b => a.1 ≤ b.1 := by
  rw [KDTreeS.kNearestSq] at h
  obtain ⟨pq', hpq, hrev⟩ := Option.map_eq_some'.mp h
  have hs : PqSorted pq' :=
    kNN_sorted q k _ [] pq' (by simp [PqSorted]) hpq
  rw [← hrev, List.pairwise_reverse]
  exact hs.imp fun hab => not_pairLt_fst_le hab

/-- Witness for C7 at a concrete input (dataset `[0],[1],[2]`, query `[1]`,
k = 2). -/
theorem claim_C7_kNearest_sorted_witness :
    ([((0 : ℚ), "b"), ((1 : ℚ), "c")] : List (ℚ × String)).Pairwise
      (fun a b => a.1 ≤ b.1) :=
  claim_C7_kNearest_sorted [⟨"a", [0]⟩, ⟨"b", [1]⟩, ⟨"c", [2]⟩] 1 [1] 2 _
    (by norm_num [KDTreeS.build, buildTree, buildTreeAux, KDTreeS.kNearestSq, kNN, pqUpdate,
      pqInsert, pairLt, pqTopDist, List.insertionSort, List.orderedInsert, axLe, sqDist,
      maxDouble, dummyItem])

theorem kNN_length (q : List ℚ) (k : ℕ) (hk : 1 ≤ k) :
    ∀ (t : KTree) (pq : List (ℚ × String)), pq.length ≤ k →
      ∃ pq', kNN t q pq k = some pq' ∧
        pq'.length = min k (pq.length + t.items.length) := by
  intro t
  induction t with
  | nil =>
    intro pq hle
    refine ⟨pq, rfl, ?_⟩
    simp only [KTree.items, List.length_nil]
    omega
  | node p tx a l r ihl ihr =>
    intro pq hle
    have hupd : ∃ pq1, pqUpdate (sqDist q p, tx) pq k = some pq1 ∧
        pq1.length = min k (pq.length + 1) := by
      rw [pqUpdate.eq_def]
      by_cases hc : pq.length < k
      · rw [if_pos hc]
        exact ⟨_, rfl, by rw [length_pqInsert]; omega⟩
      · rw [if_neg hc]
        match pq, hle, hc with
        | [], hle, hc =>
          simp only [List.length_nil] at hc
          omega
        | top :: rest, hle, hc =>
          refine ⟨_, rfl, ?_⟩
          split_ifs with hd
          · rw [length_pqInsert]
            simp only [List.length_cons] at hle hc ⊢
            omega
          · simp only [List.length_cons] at hle hc ⊢
            omega
    obtain ⟨pq1, hu, hlen1⟩ := hupd
    have hle1 : pq1.length ≤ k := by omega
    have hitems : (KTree.node p tx a l r).items.length =
        1 + l.items.length + r.items.length := by
      simp [KTree.items]
      omega
    by_cases hneg : q.getD a 0 - p.getD a 0 < 0
    · obtain ⟨pq2, h2, hlen2⟩ := ihl pq1 hle1
      have hle2 : pq2.length ≤ k := by omega
      by_cases hcond : (q.getD a 0 - p.getD a 0) * (q.getD a 0 - p.getD a 0) <
          pqTopDist pq2 ∨ pq2.length < k
      · obtain ⟨pq3, h3, hlen3⟩ := ihr pq2 hle2
        refine ⟨pq3, ?_, ?_⟩
        · rw [kNN]
          simp only
          rw [hu]
          simp only
          rw [if_pos hneg, h2]
          simp only
          rw [if_pos hcond]
          exact h3
        · rw [hitems]
          omega
      · refine ⟨pq2, ?_, ?_⟩
        · rw [kNN]
          simp only
          rw [hu]
          simp only
          rw [if_pos hneg, h2]
          simp only
          rw [if_neg hcond]
        · push_neg at hcond
          rw [hitems]
          omega
    · obtain ⟨pq2, h2, hlen2⟩ := ihr pq1 hle1
      have hle2 : pq2.length ≤ k := by omega
      by_cases hcond : (q.getD a 0 - p.getD a 0) * (q.getD a 0 - p.getD a 0) <
          pqTopDist pq2 ∨ pq2.length < k
      · obtain ⟨pq3, h3, hlen3⟩ := ihl pq2 hle2
        refine ⟨pq3, ?_, ?_⟩
        · rw [kNN]
          simp only
          rw [hu]
          simp only
          rw [if_neg hneg, h2]
          simp only
          rw [if_pos hcond]
          exact h3
        · rw [hitems]
          omega
      · refine ⟨pq2, ?_, ?_⟩
        · rw [kNN]
          simp only
          rw [hu]
          simp only
          rw [if_neg hneg, h2]
          simp only
          rw [if_neg hcond]
        · push_neg at hcond
          rw [hitems]
          omega

/-- Claim C5 (code bug): with k = 0 on a non-empty tree the update step
reaches `pq.top()` on an EMPTY `std::priority_queue` — undefined behaviour
(first conjunct: the model's `none`), whereas the claim says the empty
sequence is returned.  For every k ≥ 1 the claim's length contract does
hold on the default tree (`leaf_size = 1`): `k_nearest` returns exactly
`min(k, n)` results, in particular `n` results when `k > n`, with no
error (second conjunct). -/
theorem claim_C5_k_zero_ub_and_lengths :
    KDTreeS.kNearestSq (KDTreeS.build [⟨"a", [0]⟩] 1) [0] 0 = none ∧
      ∀ (data : List DataItem) (q : List ℚ) (k : ℕ), 1 ≤ k →
        ∃ res, KDTreeS.kNearestSq (KDTreeS.build data 1) q k = some res ∧
          res.length = min k data.length := by
  constructor
  · norm_num [KDTreeS.build, buildTree, buildTreeAux, KDTreeS.kNearestSq, kNN, pqUpdate]
  · intro data q k hk
    match data with
    | [] =>
      refine ⟨[], rfl, by simp⟩
    | d0 :: rest =>
      obtain ⟨pq', hpq, hlen⟩ :=
        kNN_length q k hk (KDTreeS.build (d0 :: rest) 1).root [] (by simp)
      refine ⟨pq'.reverse, ?_, ?_⟩
      · rw [KDTreeS.kNearestSq, hpq]
        rfl
      · have hcount : (KDTreeS.build (d0 :: rest) 1).root.items.length =
            (d0 :: rest).length := by
          have hperm := items_buildTreeAux_perm_one (d0 :: rest).length (d0 :: rest) 0
            d0.embedding.length (le_refl _)
          simpa [KDTreeS.build, buildTree] using hperm.length_eq
        rw [List.length_reverse, hlen, hcount]
        simp

/-- Witness for the universally quantified part of C5 (k = 5 > n = 2). -/
theorem claim_C5_witness :
    ∃ res, KDTreeS.kNearestSq (KDTreeS.build [⟨"a", [0]⟩, ⟨"b", [1]⟩] 1) [0] 5 = some res ∧
      res.length = min 5 ([⟨"a", [0]⟩, ⟨"b", [1]⟩] : List DataItem).length :=
  claim_C5_k_zero_ub_and_lengths.2 [⟨"a", [0]⟩, ⟨"b", [1]⟩] [0] 5 (by decide)

theorem buildTree_root_point (data : List DataItem) (depth ls dims : ℕ) (hne : data ≠ []) :
    ∃ p t a l r, buildTree data depth ls dims = KTree.node p t a l r ∧
      ∃ it ∈ data, p = it.embedding := by
  match data with
  | d0 :: rest =>
    rw [buildTree]
    simp only [List.length_cons]
    rw [buildTreeAux]
    simp only [← List.length_cons d0 rest]
    by_cases hleaf : (d0 :: rest).length ≤ ls
    · rw [if_pos hleaf]
      exact ⟨_, _, _, _, _, rfl, d0, by simp, rfl⟩
    · rw [if_neg hleaf]
      set axis := depth % dims with haxis
      set sorted := List.insertionSort (axLe axis) (d0 :: rest) with hsorted
      set mid := (d0 :: rest).length / 2 with hmid
      have hmidlt : mid < sorted.length := by
        rw [(List.perm_insertionSort _ _).length_eq]
        exact Nat.div_lt_self (by simp) (by omega)
      refine ⟨_, _, _, _, _, rfl, sorted.getD mid dummyItem, ?_, rfl⟩
      rw [getD_eq_getElem' _ _ _ hmidlt]
      exact (List.perm_insertionSort _ _).mem_iff.mp (List.getElem_mem hmidlt)

/-- Claim C9, counterexample: a query whose dimension differs from the
index's D does NOT fail with a typed `DimensionMismatch` — no dimension
check exists anywhere in the code.  On the empty index (D = 0) a 1-dimensional
query runs to completion and returns the ordinary sentinel pair, with no
failure of any kind (stated in the Eigen-assertion-aware layer, where any
mismatched subtraction would surface as `none`). -/
theorem claim_C9_counterexample :
    KDTreeS.nearestE (KDTreeS.build [] 1) [3] = some (maxDouble, "") := rfl

/-- Claim C9 as amended: queries are not dimension-checked at entry; on a
non-empty index, a query of mismatched dimension is passed straight into
the search and the first Eigen subtraction `query - node->point` of
mismatched sizes is reached — a runtime assertion failure / undefined
behaviour (`none` in the model), not a typed `DimensionMismatch` error;
on an empty index such a query simply succeeds (see the counterexample). -/
theorem claim_C9_amended (data : List DataItem) (ls : ℕ) (q : List ℚ) (d : ℕ)
    (hne : data ≠ []) (hlen : ∀ it ∈ data, it.embedding.length = d)
    (hq : q.length ≠ d) :
    KDTreeS.nearestE (KDTreeS.build data ls) q = none := by
  match data with
  | d0 :: rest =>
    obtain ⟨p, t, a, l, r, hroot, it, hit, hp⟩ :=
      buildTree_root_point (d0 :: rest) 0 ls d0.embedding.length (by simp)
    have hshow : KDTreeS.nearestE (KDTreeS.build (d0 :: rest) ls) q =
        nearestNeighborE (buildTree (d0 :: rest) 0 ls d0.embedding.length) q
          (maxDouble, "") := rfl
    rw [hshow, hroot, nearestNeighborE]
    have hmismatch : sqDistE q p = none := by
      rw [sqDistE, if_neg]
      rw [hp, hlen it hit]
      exact hq
    rw [hmismatch]

/-- Witness for the amended C9: a 2-dimensional one-item index queried
with a 1-dimensional vector aborts inside the distance computation. -/
theorem claim_C9_amended_witness :
    KDTreeS.nearestE (KDTreeS.build [⟨"p", [0, 0]⟩] 1) [3] = none :=
  claim_C9_amended [⟨"p", [0, 0]⟩] 1 [3] 2 (by decide) (by decide) (by decide)

theorem sqNormV_cons (x : ℚ) (xs : List ℚ) : sqNormV (x :: xs) = x * x + sqNormV xs := by
  simp [sqNormV]

theorem sqNormV_div (v : List ℚ) (c : ℚ) :
    sqNormV (v.map fun x => x / c) = sqNormV v / c ^ 2 := by
  induction v with
  | nil => simp [sqNormV]
  | cons x xs ih =>
    rw [List.map_cons, sqNormV_cons, sqNormV_cons, ih, add_div, div_mul_div_comm]
    ring_nf

/-- Claim C8: `DeterministicEmbedder`'s whole instance state is
`(embedding_dim, seed)` and the generator is a local of each call, so two
freshly constructed instances with equal `(seed, D)` produce identical
vectors for every text (first conjunct — determinism is purity of the
embedding, which models exactly that the C++ has no other state); and for
text with a non-empty token list whose summed vector is non-degenerate
(positive norm — the hypotheses pin the abstract square root down at the
one point where it is used), the returned vector has squared L2 norm
exactly 1 in real arithmetic, hence norm 1 well within the claimed 1e-9. -/
theorem claim_C8_embed_deterministic_unit_norm (sq : ℚ → ℚ) (g : ℕ → ℕ → ℚ)
    (e₁ e₂ : Embedder) (t : String) (hdim : e₁.dim = e₂.dim)
    (hseed : e₁.seedv = e₂.seedv) :
    Embedder.embed e₁ sq g t = Embedder.embed e₂ sq g t ∧
      (tokenize t ≠ [] →
        sq (sqNormV (rawSum sq g e₁.seedv e₁.dim t)) ^ 2 =
          sqNormV (rawSum sq g e₁.seedv e₁.dim t) →
        0 < sq (sqNormV (rawSum sq g e₁.seedv e₁.dim t)) →
        sqNormV (Embedder.embed e₁ sq g t) = 1) := by
  obtain ⟨d1, s1⟩ := e₁
  obtain ⟨d2, s2⟩ := e₂
  simp only at hdim hseed
  subst hdim
  subst hseed
  refine ⟨rfl, ?_⟩
  intro hne hsq hpos
  simp only [Embedder.embed] at hsq hpos ⊢
  rw [getEmbedding, if_neg hne]
  simp only
  rw [if_pos hpos, sqNormV_div, hsq]
  have hSpos : 0 < sqNormV (rawSum sq g s1 d1 t) := by
    rw [← hsq]
    positivity
  exact div_self (ne_of_gt hSpos)

/-- Witness for C8: dimension 1, seed 42, all draws equal to 1, text "a". -/
theorem claim_C8_witness :
    sqNormV (Embedder.embed ⟨1, 42⟩ id (fun _ _ => 1) "a") = 1 := by
  have hS : sqNormV (rawSum id (fun _ _ => 1) 42 1 "a") = 1 := by
    have ht : tokenize "a" = ["a"] := by decide
    norm_num [rawSum, ht, getTokenEmbedding, normalizeV, sqNormV, zeroV, addV,
      List.range, List.range.loop]
  exact (claim_C8_embed_deterministic_unit_norm id (fun _ _ => 1) ⟨1, 42⟩ ⟨1, 42⟩ "a"
    rfl rfl).2 (by decide) (by rw [hS]; norm_num) (by rw [hS]; norm_num)
